import Mathlib

/-!
Verification development for the Sustainable Investment Funds Optimizer.

The application (src/app.py) collects a ticker list, a budget and a date
range, fetches closing prices, forward-fills missing values, and runs an
optimization pipeline: expected-return estimation, Ledoit-Wolf covariance
shrinkage, a max-Sharpe efficient-frontier solve, weight cleaning, and a
greedy discrete share allocation.  The UI control flow and the broad
error handler are embedded directly from src/app.py; the numerical core
is delegated by the source to an external library, so those components
are modelled from the specification.
-/

/- ## Ticker validation control flow (src/app.py lines 17-35) -/

/-- The outer validation at src/app.py line 20: the error branch is taken
when the parsed ticker list has fewer than 1 or more than 5 entries. -/
def tickerCountInvalid (tickers : List String) : Prop :=
  tickers.length < 1 ∨ 5 < tickers.length

/-- The inner check at src/app.py line 34, inside the optimize-button
handler: the `Select at least one investment fund` error is displayed
when the ticker list is empty. -/
def innerEmptyError (tickers : List String) : Prop :=
  tickers.length = 0

/- ## Missing-value handling control flow (src/app.py lines 50-71) -/

/-- Forward fill of one price column, as pandas ffill does along the
date index: a missing cell takes the most recent earlier value of the
same column; a leading missing cell has no earlier value and stays
missing. -/
def ffillCol (last : Option ℚ) : List (Option ℚ) → List (Option ℚ)
  | [] => []
  | x :: xs =>
    match x with
    | some v => some v :: ffillCol (some v) xs
    | none => last :: ffillCol last xs

/-- The data frame `data` as a list of columns, each a list of optional
closing prices ordered by date; `data.ffill()` at src/app.py line 50. -/
def ffillDF (df : List (List (Option ℚ))) : List (List (Option ℚ)) :=
  df.map (ffillCol none)

/-- `data_filled.isnull().sum().sum()` at src/app.py line 53: the total
number of missing cells. -/
def missingCount (df : List (List (Option ℚ))) : ℕ :=
  (df.map (fun col => (col.filter (fun x => x.isNone)).length)).sum

/-- `data_filled.empty` at src/app.py line 59: a pandas data frame is
empty when either axis has length zero (no columns, or no rows). -/
def dfIsEmpty (df : List (List (Option ℚ))) : Bool :=
  df.isEmpty || df.all (fun col => col.isEmpty)

/-- What the handler does after forward filling. -/
structure PostFillBehavior where
  warns : Bool
  halts : Bool
  runsOptimization : Bool
  deriving DecidableEq

/-- The control flow of src/app.py lines 50-71: forward fill, warn (but
do not stop) when missing values remain, stop only when the filled frame
is empty, otherwise proceed to the optimization block. -/
def afterFillStep (data : List (List (Option ℚ))) : PostFillBehavior :=
  let filled := ffillDF data
  { warns := missingCount filled != 0
    halts := dfIsEmpty filled
    runsOptimization := !dfIsEmpty filled }

/- ## The broad error handler (src/app.py lines 104-105) -/

/-- The error taxonomy of the specification (section 7). -/
inductive PipeError where
  | insufficientData
  | illConditionedCovariance
  | infeasibleConstraints
  | optimizationDidNotConverge
  | budgetTooSmall
  deriving DecidableEq

/-- An exception reaching the catch-all handler: the kind of failure it
represents together with its message text (Python str(e)). -/
def OptimException : Type := PipeError × String

/-- The handler at src/app.py lines 104-105: `except Exception as e:`
displays one error string built from the exception's message text alone;
the kind of the failure does not reach the output. -/
def catchAllMessage (e : OptimException) : String :=
  "An error occurred during portfolio optimization: " ++ e.2

/- ## Weight Cleaner (modelled from the spec, section 4.4) -/

/-- Modelled from the spec: src/app.py line 72 delegates weight cleaning
to the external library; per section 4.4 entries with absolute value
below the cutoff are zeroed out. -/
def zeroSmall (eps : ℚ) (ws : List ℚ) : List ℚ :=
  ws.map (fun w => if |w| < eps then 0 else w)

/-- Modelled from the spec: renormalization divides every entry by the
current sum so the entries sum to one. -/
def renormalize (ws : List ℚ) : List ℚ :=
  ws.map (fun w => w / ws.sum)

/-- Modelled from the spec: rounding a weight to a configured number of
decimal digits. -/
def roundTo (prec : ℕ) (w : ℚ) : ℚ :=
  ((round (w * 10 ^ prec) : ℤ) : ℚ) / 10 ^ prec

/-- Modelled from the spec: the Weight Cleaner of section 4.4 (the
library call at src/app.py line 72 is outside the repository).  It
zeroes entries below the cutoff, renormalizes, rounds to the configured
precision, and re-renormalizes after rounding. -/
def clean_weights (eps : ℚ) (prec : ℕ) (ws : List ℚ) : List ℚ :=
  renormalize ((renormalize (zeroSmall eps ws)).map (roundTo prec))

/- ## Lemmas about the cleaner -/

lemma sum_map_div (l : List ℚ) (c : ℚ) : (l.map (fun w => w / c)).sum = l.sum / c := by
  induction l with
  | nil => simp
  | cons a t ih => simp [ih, add_div]

lemma renormalize_sum (ws : List ℚ) (h : ws.sum ≠ 0) : (renormalize ws).sum = 1 := by
  unfold renormalize
  rw [sum_map_div, div_self h]

lemma renormalize_mem_nonneg (ws : List ℚ) (hpos : 0 < ws.sum)
    (hnn : ∀ v ∈ ws, 0 ≤ v) : ∀ v ∈ renormalize ws, 0 ≤ v := by
  intro v hv
  rcases List.mem_map.1 hv with ⟨u, hu, rfl⟩
  exact div_nonneg (hnn u hu) hpos.le

lemma zeroSmall_nonneg (eps : ℚ) (ws : List ℚ) (hnn : ∀ v ∈ ws, 0 ≤ v) :
    ∀ v ∈ zeroSmall eps ws, 0 ≤ v := by
  intro v hv
  rcases List.mem_map.1 hv with ⟨u, hu, rfl⟩
  by_cases h : |u| < eps <;> simp [h, hnn u hu]

lemma roundTo_nonneg (prec : ℕ) (w : ℚ) (hw : 0 ≤ w) : 0 ≤ roundTo prec w := by
  unfold roundTo
  have hpow : (0 : ℚ) < 10 ^ prec := by positivity
  have h0 : (0 : ℤ) ≤ round (w * 10 ^ prec) := by
    rw [round_eq]
    have : (0 : ℚ) ≤ w * 10 ^ prec + 1 / 2 := by positivity
    exact Int.le_floor.2 (by exact_mod_cast this)
  have : (0 : ℚ) ≤ ((round (w * 10 ^ prec) : ℤ) : ℚ) := by exact_mod_cast h0
  positivity

/-- Claim C1: the Weight Cleaner zeroes entries below the cutoff,
renormalizes, rounds to the configured precision and re-renormalizes, so
that the output weights sum exactly to 1 (hence in particular within
1e-9) and every output value lies within the bounds [0, 1].  Stated for
any nonnegative raw weight vector whose surviving mass is positive both
after the cutoff and after rounding. -/
theorem clean_weights_sum_to_one (eps : ℚ) (prec : ℕ) (ws : List ℚ)
    (hnn : ∀ v ∈ ws, 0 ≤ v)
    (h1 : 0 < (zeroSmall eps ws).sum)
    (h2 : 0 < ((renormalize (zeroSmall eps ws)).map (roundTo prec)).sum) :
    (clean_weights eps prec ws).sum = 1 ∧
      |(clean_weights eps prec ws).sum - 1| ≤ 1 / 1000000000 ∧
      ∀ v ∈ clean_weights eps prec ws, 0 ≤ v ∧ v ≤ 1 := by
  have hz := zeroSmall_nonneg eps ws hnn
  have hr := renormalize_mem_nonneg (zeroSmall eps ws) h1 hz
  have hround : ∀ v ∈ (renormalize (zeroSmall eps ws)).map (roundTo prec), 0 ≤ v := by
    intro v hv
    rcases List.mem_map.1 hv with ⟨u, hu, rfl⟩
    exact roundTo_nonneg prec u (hr u hu)
  have hsum : (clean_weights eps prec ws).sum = 1 :=
    renormalize_sum _ (ne_of_gt h2)
  refine ⟨hsum, ?_, ?_⟩
  · rw [hsum]
    simp
  · intro v hv
    have h0 := renormalize_mem_nonneg _ h2 hround v hv
    refine ⟨h0, ?_⟩
    rcases List.mem_map.1 hv with ⟨u, hu, rfl⟩
    exact div_le_one_of_le₀ (List.single_le_sum hround u hu) h2.le

/-- Witness for C1: the raw weights [1/2, 1/2] with the default cutoff
1e-4 and precision 4 satisfy all hypotheses and clean to weights summing
exactly to 1. -/
theorem clean_weights_sum_to_one_witness :
    (clean_weights (1 / 10000) 4 [1 / 2, 1 / 2]).sum = 1 ∧
      ∀ v ∈ clean_weights (1 / 10000) 4 [1 / 2, 1 / 2], 0 ≤ v ∧ v ≤ 1 := by
  have h := clean_weights_sum_to_one (1 / 10000) 4 [1 / 2, 1 / 2]
    (by norm_num)
    (by norm_num [zeroSmall, abs_of_pos])
    (by norm_num [zeroSmall, renormalize, roundTo, round_eq, abs_of_pos])
  exact ⟨h.1, h.2.2⟩

/-- Claim C9: the inner empty-ticker branch is unreachable.  Any ticker
list that passes the outer validation (src/app.py line 20) has between 1
and 5 entries, so the check at line 34 never fires. -/
theorem inner_empty_check_unreachable (tickers : List String)
    (h : ¬ tickerCountInvalid tickers) : ¬ innerEmptyError tickers := by
  unfold tickerCountInvalid at h
  unfold innerEmptyError
  omega

/-- Witness for C9: the default ticker list parses to four entries; it
passes the outer validation and the inner branch is not taken. -/
theorem inner_empty_check_unreachable_witness :
    ¬ innerEmptyError ["ESGU", "SUSA", "ESG", "VSGX"] :=
  inner_empty_check_unreachable ["ESGU", "SUSA", "ESG", "VSGX"]
    (by simp [tickerCountInvalid])

/-- Claim C10: after forward filling, remaining missing values produce
only a warning while the pipeline still runs; the handler halts before
optimization exactly when the filled frame is empty. -/
theorem after_fill_proceeds_with_missing (data : List (List (Option ℚ))) :
    (0 < missingCount (ffillDF data) → (afterFillStep data).warns = true) ∧
      ((afterFillStep data).runsOptimization = true ↔ dfIsEmpty (ffillDF data) = false) ∧
      ((afterFillStep data).halts = true ↔ dfIsEmpty (ffillDF data) = true) ∧
      (afterFillStep data).halts = !(afterFillStep data).runsOptimization := by
  refine ⟨?_, ?_, ?_, ?_⟩
  · intro hmc
    simp [afterFillStep]
    omega
  · simp [afterFillStep]
  · simp [afterFillStep]
  · simp [afterFillStep]

/-- Witness for C10: a single column whose leading cell is missing.
Forward fill cannot resolve a leading gap, so one missing value remains;
the handler warns yet still runs the optimization, because the filled
frame is not empty. -/
theorem after_fill_proceeds_with_missing_witness :
    (afterFillStep [[none, some 1]]).warns = true ∧
      (afterFillStep [[none, some 1]]).runsOptimization = true := by
  have h := after_fill_proceeds_with_missing [[none, some 1]]
  refine ⟨h.1 ?_, h.2.1.mpr ?_⟩
  · simp [ffillDF, ffillCol, missingCount]
  · simp [ffillDF, ffillCol, dfIsEmpty]

/-- Claim C8 counterexample: two failures of different taxonomy kinds
but equal message text produce identical displayed output from the
catch-all handler at src/app.py lines 104-105, so the surfaced error is
not distinguishable by kind: the claim as stated is false of the code. -/
theorem catch_all_not_typed_counterexample :
    catchAllMessage (PipeError.insufficientData, "singular matrix") =
        catchAllMessage (PipeError.budgetTooSmall, "singular matrix") ∧
      PipeError.insufficientData ≠ PipeError.budgetTooSmall :=
  ⟨rfl, by simp⟩

/-- Claim C8 amended: every failure of the optimization block reaches
the single catch-all handler, which always displays an error message
(so no failure is silently dropped), but the displayed output is
determined by, and only by, the exception's message text: the taxonomy
kind of the failure is not surfaced. -/
theorem catch_all_message_determined_by_text (e e' : OptimException) :
    catchAllMessage e = "An error occurred during portfolio optimization: " ++ e.2 ∧
      (catchAllMessage e = catchAllMessage e' ↔ e.2 = e'.2) := by
  constructor
  · rfl
  · constructor
    · intro h
      have hd : (catchAllMessage e).data = (catchAllMessage e').data := by rw [h]
      simp only [catchAllMessage, String.data_append] at hd
      exact String.ext (List.append_cancel_left hd)
    · intro h
      unfold catchAllMessage
      rw [h]


/- ## Discrete Allocator (modelled from the spec, section 4.5) -/

/-- Total spend of a share assignment at the given latest prices:
the sum of shares times price over all instruments. -/
def spend {n : ℕ} (p : Fin n → ℚ) (s : Fin n → ℕ) : ℚ :=
  ∑ i, (s i : ℚ) * p i

/-- Modelled from the spec: the ideal fractional share count of step 1,
weight times budget divided by price (src/app.py line 88 delegates the
allocation to the external library). -/
def idealShares {n : ℕ} (w p : Fin n → ℚ) (B : ℚ) (i : Fin n) : ℚ :=
  w i * B / p i

/-- Modelled from the spec: the baseline allocation of step 2, the floor
of each ideal count. -/
def baselineShares {n : ℕ} (w p : Fin n → ℚ) (B : ℚ) (i : Fin n) : ℕ :=
  (⌊idealShares w p B i⌋).toNat

/-- Modelled from the spec: the shortfall ratio of step 3, how far the
currently allocated value sits below the target weighted value, as a
fraction of the target. -/
def shortfall {n : ℕ} (w p : Fin n → ℚ) (B : ℚ) (s : Fin n → ℕ) (i : Fin n) : ℚ :=
  (w i * B - (s i : ℚ) * p i) / (w i * B)

/-- Modelled from the spec: the fixed selection order of step 3 and its
tie-break rule; candidate b beats candidate a when its shortfall ratio
is strictly greater, or equal with a strictly lower price, or equal with
an equal price and a lower index (a fixed, reproducible order). -/
abbrev betterPick {n : ℕ} (w p : Fin n → ℚ) (B : ℚ) (s : Fin n → ℕ) (b a : Fin n) : Prop :=
  shortfall w p B s a < shortfall w p B s b ∨
    (shortfall w p B s b = shortfall w p B s a ∧
      (p b < p a ∨ (p b = p a ∧ b < a)))

/-- The instruments eligible for one more share: non-zero cleaned weight
and a price that fits within the remaining budget. -/
def candidateList {n : ℕ} (w p : Fin n → ℚ) (rem : ℚ) : List (Fin n) :=
  (List.finRange n).filter (fun i => decide (0 < w i ∧ p i ≤ rem))

/-- Select the best candidate under the fixed order, none when the list
is empty. -/
def selectFrom {n : ℕ} (w p : Fin n → ℚ) (B : ℚ) (s : Fin n → ℕ) :
    List (Fin n) → Option (Fin n)
  | [] => none
  | x :: xs => some (xs.foldl (fun a b => if betterPick w p B s b a then b else a) x)

/-- Modelled from the spec: one selection of step 3, the affordable
eligible instrument with the greatest shortfall ratio, ties broken by
lower price then lower index. -/
def pickNext {n : ℕ} (w p : Fin n → ℚ) (B : ℚ) (s : Fin n → ℕ) (rem : ℚ) :
    Option (Fin n) :=
  selectFrom w p B s (candidateList w p rem)

/-- Modelled from the spec: the greedy loop of step 3, awarding one
share at a time and deducting its price from the remaining budget until
no further share is purchasable; fuel bounds the number of iterations. -/
def allocLoop {n : ℕ} (w p : Fin n → ℚ) (B : ℚ) :
    ℕ → (Fin n → ℕ) → ℚ → (Fin n → ℕ) × ℚ
  | 0, s, rem => (s, rem)
  | fuel + 1, s, rem =>
    match pickNext w p B s rem with
    | none => (s, rem)
    | some i => allocLoop w p B fuel (Function.update s i (s i + 1)) (rem - p i)

/-- Fuel sufficient for the greedy loop to converge: one more than the
budget divided by the cheapest eligible price.  With no eligible
instrument the loop has nothing to do. -/
def fuelFor {n : ℕ} (w p : Fin n → ℚ) (B : ℚ) : ℕ :=
  if h : (Finset.univ.filter fun i => 0 < w i).Nonempty then
    (⌈B / ((Finset.univ.filter fun i => 0 < w i).inf' h p)⌉).toNat + 1
  else 0

/-- Modelled from the spec: the full greedy discrete allocation of
section 4.5 (src/app.py line 89 delegates it to the external library):
baseline floors, then the greedy top-up loop; returns the share counts
and the leftover cash. -/
def greedy_portfolio {n : ℕ} (w p : Fin n → ℚ) (B : ℚ) : (Fin n → ℕ) × ℚ :=
  allocLoop w p B (fuelFor w p B) (baselineShares w p B)
    (B - spend p (baselineShares w p B))

/-- Modelled from the spec: the allocator fails with BudgetTooSmallError
precisely when zero shares can be allocated. -/
def greedy_portfolioE {n : ℕ} (w p : Fin n → ℚ) (B : ℚ) :
    Except PipeError ((Fin n → ℕ) × ℚ) :=
  if (∑ i, (greedy_portfolio w p B).1 i) = 0 then .error .budgetTooSmall
  else .ok (greedy_portfolio w p B)

/- ## Lemmas about the allocator -/

lemma selectFrom_mem {n : ℕ} (w p : Fin n → ℚ) (B : ℚ) (s : Fin n → ℕ)
    (l : List (Fin n)) (i : Fin n) (h : selectFrom w p B s l = some i) : i ∈ l := by
  match l with
  | [] => simp [selectFrom] at h
  | x :: xs =>
    simp only [selectFrom, Option.some.injEq] at h
    subst h
    induction xs generalizing x with
    | nil => simp
    | cons y ys ih =>
      simp only [List.foldl_cons]
      by_cases hc : betterPick w p B s y x
      · rw [if_pos hc]
        rcases List.mem_cons.1 (ih y) with h1 | h1
        · rw [h1]
          simp
        · exact List.mem_cons_of_mem _ (List.mem_cons_of_mem _ h1)
      · rw [if_neg hc]
        rcases List.mem_cons.1 (ih x) with h1 | h1
        · rw [h1]
          simp
        · exact List.mem_cons_of_mem _ (List.mem_cons_of_mem _ h1)

lemma pickNext_some {n : ℕ} (w p : Fin n → ℚ) (B : ℚ) (s : Fin n → ℕ) (rem : ℚ)
    (i : Fin n) (h : pickNext w p B s rem = some i) : 0 < w i ∧ p i ≤ rem := by
  have hm := selectFrom_mem w p B s _ i h
  have := List.mem_filter.1 hm
  exact of_decide_eq_true this.2

lemma pickNext_none {n : ℕ} (w p : Fin n → ℚ) (B : ℚ) (s : Fin n → ℕ) (rem : ℚ)
    (h : pickNext w p B s rem = none) : ∀ i, 0 < w i → rem < p i := by
  intro i hw
  by_contra hlt
  push_neg at hlt
  have hmem : i ∈ candidateList w p rem :=
    List.mem_filter.2 ⟨List.mem_finRange i, decide_eq_true ⟨hw, hlt⟩⟩
  unfold pickNext at h
  rcases hc : candidateList w p rem with _ | ⟨x, xs⟩
  · rw [hc] at hmem
    simp at hmem
  · rw [hc] at h
    simp [selectFrom] at h

lemma spend_update {n : ℕ} (p : Fin n → ℚ) (s : Fin n → ℕ) (i : Fin n) :
    spend p (Function.update s i (s i + 1)) = spend p s + p i := by
  unfold spend
  rw [← Finset.add_sum_erase Finset.univ _ (Finset.mem_univ i),
    ← Finset.add_sum_erase Finset.univ (fun j => (s j : ℚ) * p j) (Finset.mem_univ i)]
  have hrest : ∑ j ∈ Finset.univ.erase i, ((Function.update s i (s i + 1) j : ℕ) : ℚ) * p j =
      ∑ j ∈ Finset.univ.erase i, ((s j : ℕ) : ℚ) * p j := by
    refine Finset.sum_congr rfl ?_
    intro j hj
    rw [Function.update_noteq (Finset.ne_of_mem_erase hj)]
  rw [hrest, Function.update_same]
  push_cast
  ring

lemma allocLoop_inv {n : ℕ} (w p : Fin n → ℚ) (B : ℚ) :
    ∀ (fuel : ℕ) (s : Fin n → ℕ) (rem : ℚ), spend p s + rem = B → 0 ≤ rem →
      spend p (allocLoop w p B fuel s rem).1 + (allocLoop w p B fuel s rem).2 = B ∧
        0 ≤ (allocLoop w p B fuel s rem).2 := by
  intro fuel
  induction fuel with
  | zero => intro s rem h1 h2; exact ⟨h1, h2⟩
  | succ f ih =>
    intro s rem h1 h2
    rcases hpk : pickNext w p B s rem with _ | i
    · simp only [allocLoop, hpk]
      exact ⟨h1, h2⟩
    · have hi := pickNext_some w p B s rem i hpk
      simp only [allocLoop, hpk]
      refine ih _ _ ?_ ?_
      · rw [spend_update]
        ring_nf
        ring_nf at h1
        exact h1
      · exact sub_nonneg.2 hi.2

lemma allocLoop_final {n : ℕ} (w p : Fin n → ℚ) (B : ℚ) (mp : ℚ)
    (hle : ∀ i, 0 < w i → mp ≤ p i) :
    ∀ (fuel : ℕ) (s : Fin n → ℕ) (rem : ℚ), 0 ≤ rem → rem < (fuel : ℚ) * mp →
      ∀ i, 0 < w i → (allocLoop w p B fuel s rem).2 < p i := by
  intro fuel
  induction fuel with
  | zero =>
    intro s rem h0 hlt
    simp only [Nat.cast_zero, zero_mul] at hlt
    exact absurd h0 (not_le.2 hlt)
  | succ f ih =>
    intro s rem h0 hlt i hwi
    rcases hpk : pickNext w p B s rem with _ | j
    · simp only [allocLoop, hpk]
      exact pickNext_none w p B s rem hpk i hwi
    · have hj := pickNext_some w p B s rem j hpk
      simp only [allocLoop, hpk]
      refine ih _ _ (sub_nonneg.2 hj.2) ?_ i hwi
      have hpj : mp ≤ p j := hle j hj.1
      push_cast at hlt ⊢
      linarith

lemma baseline_le_ideal {n : ℕ} (w p : Fin n → ℚ) (B : ℚ)
    (hp : ∀ i, 0 < p i) (hw : ∀ i, 0 ≤ w i) (hB : 0 ≤ B) (i : Fin n) :
    ((baselineShares w p B i : ℕ) : ℚ) ≤ idealShares w p B i := by
  unfold baselineShares
  have hideal : 0 ≤ idealShares w p B i := by
    unfold idealShares
    have := hp i
    have := hw i
    positivity
  have hfl : (0 : ℤ) ≤ ⌊idealShares w p B i⌋ := Int.le_floor.2 (by exact_mod_cast hideal)
  have hcast : (((⌊idealShares w p B i⌋).toNat : ℕ) : ℚ) =
      ((⌊idealShares w p B i⌋ : ℤ) : ℚ) := by
    exact_mod_cast congrArg (fun z : ℤ => (z : ℚ)) (Int.toNat_of_nonneg hfl)
  rw [hcast]
  exact_mod_cast Int.floor_le _

lemma baseline_spend_le {n : ℕ} (w p : Fin n → ℚ) (B : ℚ)
    (hp : ∀ i, 0 < p i) (hw : ∀ i, 0 ≤ w i) (hsum : ∑ i, w i ≤ 1) (hB : 0 ≤ B) :
    spend p (baselineShares w p B) ≤ B := by
  unfold spend
  have hstep : ∀ i ∈ Finset.univ, ((baselineShares w p B i : ℕ) : ℚ) * p i ≤ w i * B := by
    intro i _
    have h1 := baseline_le_ideal w p B hp hw hB i
    have h2 : idealShares w p B i * p i = w i * B := by
      unfold idealShares
      exact div_mul_cancel₀ _ (ne_of_gt (hp i))
    calc ((baselineShares w p B i : ℕ) : ℚ) * p i
        ≤ idealShares w p B i * p i := by
          exact mul_le_mul_of_nonneg_right h1 (hp i).le
      _ = w i * B := h2
  calc (∑ i, ((baselineShares w p B i : ℕ) : ℚ) * p i) ≤ ∑ i, w i * B :=
        Finset.sum_le_sum hstep
    _ = (∑ i, w i) * B := by rw [Finset.sum_mul]
    _ ≤ 1 * B := mul_le_mul_of_nonneg_right hsum hB
    _ = B := one_mul B

lemma baseline_spend_nonneg {n : ℕ} (w p : Fin n → ℚ) (B : ℚ)
    (hp : ∀ i, 0 < p i) : 0 ≤ spend p (baselineShares w p B) := by
  unfold spend
  refine Finset.sum_nonneg ?_
  intro i _
  have := (hp i).le
  positivity

lemma greedy_accounting_lemma {n : ℕ} (w p : Fin n → ℚ) (B : ℚ)
    (hp : ∀ i, 0 < p i) (hw : ∀ i, 0 ≤ w i) (hsum : ∑ i, w i ≤ 1) (hB : 0 ≤ B) :
    spend p (greedy_portfolio w p B).1 + (greedy_portfolio w p B).2 = B ∧
      0 ≤ (greedy_portfolio w p B).2 := by
  unfold greedy_portfolio
  refine allocLoop_inv w p B _ _ _ (by ring) ?_
  exact sub_nonneg.2 (baseline_spend_le w p B hp hw hsum hB)

lemma greedy_final_lemma {n : ℕ} (w p : Fin n → ℚ) (B : ℚ)
    (hp : ∀ i, 0 < p i) (hw : ∀ i, 0 ≤ w i) (hsum : ∑ i, w i ≤ 1) (hB : 0 ≤ B) :
    ∀ i, 0 < w i → (greedy_portfolio w p B).2 < p i := by
  by_cases h : (Finset.univ.filter fun i => 0 < w i).Nonempty
  · set mp := (Finset.univ.filter fun i : Fin n => 0 < w i).inf' h p with hmpdef
    have hmp : 0 < mp := by
      obtain ⟨j, hj, hje⟩ := Finset.exists_mem_eq_inf' h p
      rw [hmpdef, hje]
      exact hp j
    have hle : ∀ i, 0 < w i → mp ≤ p i := by
      intro i hi
      exact Finset.inf'_le p (Finset.mem_filter.2 ⟨Finset.mem_univ i, hi⟩)
    have hfuel : fuelFor w p B = (⌈B / mp⌉).toNat + 1 := by
      unfold fuelFor
      rw [dif_pos h]
    have hrem0 : B - spend p (baselineShares w p B) ≤ B := by
      have := baseline_spend_nonneg w p B hp
      linarith
    have hceil : (0 : ℤ) ≤ ⌈B / mp⌉ := Int.ceil_nonneg (by positivity)
    have hcast : (((⌈B / mp⌉).toNat : ℕ) : ℚ) = ((⌈B / mp⌉ : ℤ) : ℚ) := by
      exact_mod_cast congrArg (fun z : ℤ => (z : ℚ)) (Int.toNat_of_nonneg hceil)
    have hBlt : B < ((fuelFor w p B : ℕ) : ℚ) * mp := by
      rw [hfuel]
      push_cast
      rw [hcast]
      have h1 : B / mp ≤ ((⌈B / mp⌉ : ℤ) : ℚ) := Int.le_ceil _
      have h2 : B / mp * mp = B := div_mul_cancel₀ B (ne_of_gt hmp)
      nlinarith
    intro i hi
    unfold greedy_portfolio
    refine allocLoop_final w p B mp hle _ _ _
      (sub_nonneg.2 (baseline_spend_le w p B hp hw hsum hB)) (lt_of_le_of_lt hrem0 hBlt)
      i hi
  · intro i hi
    exact absurd (Finset.filter_nonempty_iff.2 ⟨i, Finset.mem_univ i, hi⟩) h

lemma pickNext_none_of {n : ℕ} (w p : Fin n → ℚ) (B : ℚ) (s : Fin n → ℕ) (rem : ℚ)
    (h : ∀ i, ¬(0 < w i ∧ p i ≤ rem)) : pickNext w p B s rem = none := by
  unfold pickNext candidateList
  have hfil : (List.finRange n).filter (fun i => decide (0 < w i ∧ p i ≤ rem)) = [] := by
    refine List.filter_eq_nil_iff.2 ?_
    intro i _
    simpa using h i
  rw [hfil]
  rfl

lemma allocLoop_stuck {n : ℕ} (w p : Fin n → ℚ) (B : ℚ) (rem : ℚ)
    (h : ∀ i, ¬(0 < w i ∧ p i ≤ rem)) (fuel : ℕ) (s : Fin n → ℕ) :
    allocLoop w p B fuel s rem = (s, rem) := by
  cases fuel with
  | zero => rfl
  | succ f => simp [allocLoop, pickNext_none_of w p B s rem h]

/-- Claim C2: for every cleaned weight vector, latest price vector and
budget accepted by the Discrete Allocator, the produced allocation
satisfies spend + leftover = budget exactly (hence within one share's
worth of price), and the leftover is nonnegative. -/
theorem greedy_portfolio_accounting {n : ℕ} (w p : Fin n → ℚ) (B : ℚ)
    (hp : ∀ i, 0 < p i) (hw : ∀ i, 0 ≤ w i) (hsum : ∑ i, w i ≤ 1) (hB : 0 ≤ B) :
    spend p (greedy_portfolio w p B).1 + (greedy_portfolio w p B).2 = B ∧
      0 ≤ (greedy_portfolio w p B).2 :=
  greedy_accounting_lemma w p B hp hw hsum hB

/-- Witness for C2: one instrument with full weight, price 2, budget 3;
the allocation's spend plus leftover is exactly the budget and the
leftover is nonnegative. -/
theorem greedy_portfolio_accounting_witness :
    spend (![2] : Fin 1 → ℚ) (greedy_portfolio ![1] ![2] 3).1 +
        (greedy_portfolio (![1] : Fin 1 → ℚ) ![2] 3).2 = 3 ∧
      0 ≤ (greedy_portfolio (![1] : Fin 1 → ℚ) ![2] 3).2 :=
  greedy_portfolio_accounting ![1] ![2] 3
    (by intro i; fin_cases i; norm_num)
    (by intro i; fin_cases i; norm_num)
    (by simp)
    (by norm_num)

/-- Claim C3: the leftover cash of the greedy allocation is nonnegative
and strictly smaller than the latest price of every instrument with
non-zero cleaned weight, so in particular of every such instrument whose
single additional share would still fit within the leftover: the greedy
loop terminates only when no further share is purchasable. -/
theorem greedy_portfolio_leftover_lt_price {n : ℕ} (w p : Fin n → ℚ) (B : ℚ)
    (hp : ∀ i, 0 < p i) (hw : ∀ i, 0 ≤ w i) (hsum : ∑ i, w i ≤ 1) (hB : 0 ≤ B) :
    0 ≤ (greedy_portfolio w p B).2 ∧
      ∀ i, w i ≠ 0 → (greedy_portfolio w p B).2 < p i := by
  refine ⟨(greedy_accounting_lemma w p B hp hw hsum hB).2, ?_⟩
  intro i hi
  exact greedy_final_lemma w p B hp hw hsum hB i (lt_of_le_of_ne (hw i) (Ne.symm hi))

/-- Witness for C3: one instrument with full weight, price 2, budget 3;
the loop buys one share and the leftover 1 is below the price 2. -/
theorem greedy_portfolio_leftover_lt_price_witness :
    0 ≤ (greedy_portfolio (![1] : Fin 1 → ℚ) ![2] 3).2 ∧
      ∀ i, (![1] : Fin 1 → ℚ) i ≠ 0 → (greedy_portfolio (![1] : Fin 1 → ℚ) ![2] 3).2 < ![2] i :=
  greedy_portfolio_leftover_lt_price ![1] ![2] 3
    (by intro i; fin_cases i; norm_num)
    (by intro i; fin_cases i; norm_num)
    (by simp)
    (by norm_num)

/-- Claim C4: the allocator fails with BudgetTooSmallError exactly when
every eligible instrument (non-zero cleaned weight) costs more than the
whole budget, that is, when zero shares can be allocated; whenever some
eligible instrument's price is at most the budget, no
BudgetTooSmallError is raised. -/
theorem greedy_portfolioE_budget_too_small_iff {n : ℕ} (w p : Fin n → ℚ) (B : ℚ)
    (hp : ∀ i, 0 < p i) (hw : ∀ i, 0 ≤ w i) (hw1 : ∀ i, w i ≤ 1)
    (hsum : ∑ i, w i ≤ 1) (hB : 0 ≤ B) :
    (greedy_portfolioE w p B = .error .budgetTooSmall ↔ ∀ i, 0 < w i → B < p i) ∧
      ((∃ i, 0 < w i ∧ p i ≤ B) → ∃ a, greedy_portfolioE w p B = .ok a) := by
  have key : (∑ i, (greedy_portfolio w p B).1 i) = 0 → ∀ i, 0 < w i → B < p i := by
    intro hz i hi
    have hall := (Finset.sum_eq_zero_iff.1 hz)
    have hspend : spend p (greedy_portfolio w p B).1 = 0 := by
      unfold spend
      refine Finset.sum_eq_zero ?_
      intro j hj
      rw [hall j hj]
      simp
    have hacc := greedy_accounting_lemma w p B hp hw hsum hB
    have hrB : (greedy_portfolio w p B).2 = B := by
      have := hacc.1
      rw [hspend] at this
      linarith
    have := greedy_final_lemma w p B hp hw hsum hB i hi
    rwa [hrB] at this
  constructor
  · constructor
    · intro herr
      by_cases hc : (∑ i, (greedy_portfolio w p B).1 i) = 0
      · exact key hc
      · unfold greedy_portfolioE at herr
        rw [if_neg hc] at herr
        simp at herr
    · intro hgt
      have hbase : ∀ i, baselineShares w p B i = 0 := by
        intro i
        unfold baselineShares
        by_cases hi : 0 < w i
        · have hlt1 : idealShares w p B i < 1 := by
            unfold idealShares
            rw [div_lt_one (hp i)]
            have h1 : w i * B ≤ 1 * B := mul_le_mul_of_nonneg_right (hw1 i) hB
            have h2 := hgt i hi
            linarith
          have hnn : 0 ≤ idealShares w p B i := by
            unfold idealShares
            have := hp i
            have := hw i
            positivity
          rw [Int.floor_eq_zero_iff.2 ⟨hnn, hlt1⟩]
          rfl
        · have hzero : w i = 0 := le_antisymm (not_lt.1 hi) (hw i)
          unfold idealShares
          rw [hzero]
          norm_num
      have hspend0 : spend p (baselineShares w p B) = 0 := by
        unfold spend
        refine Finset.sum_eq_zero ?_
        intro j hj
        rw [hbase j]
        simp
      have hgp : greedy_portfolio w p B = (baselineShares w p B, B) := by
        unfold greedy_portfolio
        rw [hspend0, sub_zero]
        refine allocLoop_stuck w p B B ?_ _ _
        intro i hi
        exact absurd hi.2 (not_le.2 (hgt i hi.1))
      unfold greedy_portfolioE
      rw [if_pos]
      rw [hgp]
      refine Finset.sum_eq_zero ?_
      intro j hj
      exact hbase j
  · rintro ⟨i, hi, hpB⟩
    have hc : ¬ (∑ i, (greedy_portfolio w p B).1 i) = 0 := by
      intro hz
      exact absurd hpB (not_le.2 (key hz i hi))
    unfold greedy_portfolioE
    rw [if_neg hc]
    exact ⟨_, rfl⟩

/-- Witness for C4: one instrument with full weight and price 5 against
budget 3; the cheapest eligible price exceeds the budget and the
allocator fails with BudgetTooSmallError. -/
theorem greedy_portfolioE_budget_too_small_iff_witness :
    greedy_portfolioE (![1] : Fin 1 → ℚ) ![5] 3 = .error .budgetTooSmall :=
  (greedy_portfolioE_budget_too_small_iff ![1] ![5] 3
    (by intro i; fin_cases i; norm_num)
    (by intro i; fin_cases i; norm_num)
    (by intro i; fin_cases i; norm_num)
    (by simp)
    (by norm_num)).1.mpr
    (by intro i _; fin_cases i; norm_num)

/- ## Return and covariance estimators (modelled from the spec, 4.1-4.2) -/

/-- Per-period price-relative changes: each consecutive pair of price
rows yields one row of returns b / a - 1 per column. -/
def pctChanges : List (List ℚ) → List (List ℚ)
  | [] => []
  | [_] => []
  | r1 :: r2 :: rest => (List.zipWith (fun a b => b / a - 1) r1 r2) :: pctChanges (r2 :: rest)

/-- Arithmetic mean of a list of rationals. -/
def listMean (l : List ℚ) : ℚ := l.sum / l.length

/-- Modelled from the spec: the Return Estimator of section 4.1
(src/app.py line 68 delegates it to the external library): the
annualized mean historical return per column, annualized by the
trading-periods-per-year constant; fails with InsufficientDataError on
fewer than 2 rows. -/
def meanHistoricalReturn (freq : ℕ) (prices : List (List ℚ)) :
    Except PipeError (List ℚ) :=
  if prices.length < 2 then .error .insufficientData
  else .ok (((pctChanges prices).transpose).map (fun col => listMean col * freq))

/-- One sample-covariance entry between two return columns, deviations
from the column means averaged over the observations. -/
def covEntry (x y : List ℚ) : ℚ :=
  (List.zipWith (fun a b => (a - listMean x) * (b - listMean y)) x y).sum / x.length

/-- Sample covariance matrix of the return rows, column against column. -/
def sampleCov (rets : List (List ℚ)) : List (List ℚ) :=
  (rets.transpose).map (fun x => (rets.transpose).map (fun y => covEntry x y))

/-- Ledoit-Wolf-style shrinkage toward the scaled identity target: each
entry blends the sample covariance with the average variance on the
diagonal, with intensity delta. -/
def ledoitWolfShrink (delta : ℚ) (S : List (List ℚ)) : List (List ℚ) :=
  let nAssets := S.length
  let mu := ((List.range nAssets).map (fun i => ((S.getD i []).getD i 0))).sum / nAssets
  (List.range nAssets).map (fun i => (List.range nAssets).map (fun j =>
    (1 - delta) * ((S.getD i []).getD j 0) + if i = j then delta * mu else 0))

/-- Modelled from the spec: the Covariance Estimator of section 4.2
(src/app.py line 69 delegates it to the external library): the shrunk
sample covariance of period returns; fails with InsufficientDataError
under the same minimum-row condition as the Return Estimator. -/
def covShrinkage (delta : ℚ) (prices : List (List ℚ)) :
    Except PipeError (List (List ℚ)) :=
  if prices.length < 2 then .error .insufficientData
  else .ok (ledoitWolfShrink delta (sampleCov (pctChanges prices)))

/-- Claim C5: both estimators fail with InsufficientDataError when the
price matrix has fewer than 2 rows, and a price matrix with exactly 2
rows produces a valid (if degenerate) result rather than an error. -/
theorem estimators_insufficient_data (freq : ℕ) (delta : ℚ)
    (prices : List (List ℚ)) :
    (prices.length < 2 →
      meanHistoricalReturn freq prices = .error .insufficientData ∧
        covShrinkage delta prices = .error .insufficientData) ∧
      (prices.length = 2 →
        (∃ mu, meanHistoricalReturn freq prices = .ok mu) ∧
          ∃ S, covShrinkage delta prices = .ok S) := by
  constructor
  · intro h
    constructor
    · simp [meanHistoricalReturn, h]
    · simp [covShrinkage, h]
  · intro h
    have h2 : ¬ prices.length < 2 := by omega
    constructor
    · refine ⟨((pctChanges prices).transpose).map (fun col => listMean col * freq), ?_⟩
      simp [meanHistoricalReturn, h2]
    · refine ⟨ledoitWolfShrink delta (sampleCov (pctChanges prices)), ?_⟩
      simp [covShrinkage, h2]

/-- Witness for C5: a one-row price matrix raises InsufficientDataError
and a two-row price matrix produces a valid result. -/
theorem estimators_insufficient_data_witness :
    meanHistoricalReturn 252 [[1]] = .error .insufficientData ∧
      ∃ mu, meanHistoricalReturn 252 [[(1 : ℚ)], [2]] = .ok mu :=
  ⟨((estimators_insufficient_data 252 (1 / 2) [[1]]).1 (by norm_num)).1,
    ((estimators_insufficient_data 252 (1 / 2) [[(1 : ℚ)], [2]]).2 (by norm_num)).1⟩

/- ## Portfolio performance (modelled from the spec, section 4.3) -/

/-- Dot product of two rational vectors. -/
def dotQ (a b : List ℚ) : ℚ := (List.zipWith (fun x y => x * y) a b).sum

/-- Matrix-vector product over rational lists. -/
def matVecQ (S : List (List ℚ)) (w : List ℚ) : List ℚ :=
  S.map (fun row => dotQ row w)

/-- The expected portfolio return, the weighted sum of expected
returns. -/
def portfolio_return (mu w : List ℚ) : ℚ := dotQ mu w

/-- The portfolio variance, the quadratic form of the covariance matrix
at the weight vector. -/
def portfolio_variance (S : List (List ℚ)) (w : List ℚ) : ℚ :=
  dotQ w (matVecQ S w)

/-- Modelled from the spec: the realized performance triple of section
4.3 (pypfopt portfolio_performance at src/app.py line 81 is outside the
repository): the expected return is the weighted mean return, the
volatility is the square root of the quadratic form of the covariance
matrix, and the Sharpe ratio divides the excess return over the
risk-free rate (default 0.02 annualized) by the volatility. -/
def perfTriple (mu : List ℚ) (S : List (List ℚ)) (w : List ℚ) (rf : ℚ)
    (r v s : ℝ) : Prop :=
  r = ((portfolio_return mu w : ℚ) : ℝ) ∧
    v = Real.sqrt ((portfolio_variance S w : ℚ) : ℝ) ∧
    s = (r - ((rf : ℚ) : ℝ)) / v

/-- Claim C6: for every solve with positive portfolio variance, the
performance triple satisfies volatility = sqrt of the quadratic form
(nonnegative, nonzero, and squaring back to it) and Sharpe ratio times
volatility = excess return, which is the defining property of
sharpe_ratio = (expected_return - r_f) / volatility. -/
theorem portfolio_performance_triple (mu : List ℚ) (S : List (List ℚ))
    (w : List ℚ) (rf : ℚ) (r v s : ℝ)
    (h : perfTriple mu S w rf r v s)
    (hvar : 0 < portfolio_variance S w) :
    0 ≤ v ∧ v ^ 2 = ((portfolio_variance S w : ℚ) : ℝ) ∧ v ≠ 0 ∧
      s * v = r - ((rf : ℚ) : ℝ) := by
  obtain ⟨hr, hv, hs⟩ := h
  have hvarR : (0 : ℝ) < ((portfolio_variance S w : ℚ) : ℝ) := by exact_mod_cast hvar
  have h0 : 0 ≤ v := by
    rw [hv]
    exact Real.sqrt_nonneg _
  have hne : v ≠ 0 := by
    rw [hv]
    exact ne_of_gt (Real.sqrt_pos.2 hvarR)
  have hsq : v ^ 2 = ((portfolio_variance S w : ℚ) : ℝ) := by
    rw [hv]
    exact Real.sq_sqrt hvarR.le
  have hmul : s * v = r - ((rf : ℚ) : ℝ) := by
    rw [hs]
    exact div_mul_cancel₀ _ hne
  exact ⟨h0, hsq, hne, hmul⟩

/-- Witness for C6: one instrument with full weight, unit expected
return, unit variance and zero risk-free rate realizes the triple
(1, 1, 1). -/
theorem portfolio_performance_triple_witness :
    0 ≤ (1 : ℝ) ∧ (1 : ℝ) ^ 2 = ((portfolio_variance [[1]] [1] : ℚ) : ℝ) ∧
      (1 : ℝ) ≠ 0 ∧ (1 : ℝ) * 1 = 1 - (((0 : ℚ) : ℚ) : ℝ) :=
  portfolio_performance_triple [1] [[1]] [1] 0 1 1 1
    ⟨by norm_num [portfolio_return, dotQ],
      by norm_num [portfolio_variance, dotQ, matVecQ],
      by norm_num⟩
    (by norm_num [portfolio_variance, dotQ, matVecQ])

/- ## The full pipeline (modelled from the spec, sections 2 and 6) -/

/-- The latest-price row, `data_filled.iloc[-1]` at src/app.py line
87: the last row of the price matrix. -/
def lastRow (prices : List (List ℚ)) : List ℚ := prices.getLastD []

/-- The allocator stage on list-shaped cleaned weights and latest
prices, as called at src/app.py lines 88-89. -/
def runAllocator (cw latest : List ℚ) (B : ℚ) : Except PipeError (List ℕ × ℚ) :=
  match greedy_portfolioE (fun i : Fin cw.length => cw.get i)
      (fun i => latest.getD i.val 0) B with
  | .error e => .error e
  | .ok (s, r) => .ok ((List.finRange cw.length).map s, r)

/-- Modelled from the spec: the full optimization pipeline of
src/app.py lines 68-89 — estimators, solver, cleaner, allocator.  The
max-Sharpe solver itself (src/app.py line 71, delegated to the external
library) enters as an explicit function parameter; every stage is a
pure function of its inputs. -/
def pipeline (solver : List ℚ → List (List ℚ) → List ℚ) (freq : ℕ)
    (delta eps : ℚ) (prec : ℕ) (prices : List (List ℚ)) (B : ℚ) :
    Except PipeError (List ℚ × (List ℕ × ℚ)) :=
  match meanHistoricalReturn freq prices with
  | .error e => .error e
  | .ok mu =>
    match covShrinkage delta prices with
    | .error e => .error e
    | .ok S =>
      let cw := clean_weights eps prec (solver mu S)
      match runAllocator cw (lastRow prices) B with
      | .error e => .error e
      | .ok a => .ok (cw, a)

/-- Claim C7: the pipeline is deterministic.  It is a pure function of
the price data, the budget and the configuration, with a fixed
tie-break order inside the allocator, so running it twice on identical
inputs yields identical cleaned weights and identical allocations. -/
theorem pipeline_deterministic (solver : List ℚ → List (List ℚ) → List ℚ)
    (freq : ℕ) (delta eps : ℚ) (prec : ℕ)
    (prices prices' : List (List ℚ)) (B B' : ℚ)
    (hP : prices = prices') (hB : B = B') :
    pipeline solver freq delta eps prec prices B =
      pipeline solver freq delta eps prec prices' B' := by
  subst hP
  subst hB
  rfl

/-- Witness for C7: two runs of the pipeline on the same two-row price
matrix and budget produce the same output. -/
theorem pipeline_deterministic_witness :
    pipeline (fun mu _ => mu) 252 (1 / 2) (1 / 10000) 4 [[(1 : ℚ)], [2]] 1000 =
      pipeline (fun mu _ => mu) 252 (1 / 2) (1 / 10000) 4 [[(1 : ℚ)], [2]] 1000 :=
  pipeline_deterministic (fun mu _ => mu) 252 (1 / 2) (1 / 10000) 4
    [[(1 : ℚ)], [2]] [[(1 : ℚ)], [2]] 1000 1000 rfl rfl
